import Mathlib

/-!
Shallow embedding of the cross-source metadata normalization and deduplication
pipeline of the cgiar-climate-change-synthesis repository
(`src/util.py` and `src/merge_source_csvs.py`).

Strings are modelled as `List Char` (`Str`); pandas `pd.NA` cells are modelled
as `Option Str` with `none` for NA.  Python functions that can raise are
modelled with `Except Unit`.  External HTTP lookups are modelled by passing the
response as an explicit argument (the network is an external collaborator).
-/

/-- Strings of the embedding: Python `str` as a list of characters. -/
abbrev Str := List Char

/-- Convert a Lean string literal to the embedding's string type. -/
def str (s : String) : Str := s.data

/-- Python `s.startswith(pat)` on the embedded strings. -/
def startsWithL : Str → Str → Bool
  | [], _ => true
  | _ :: _, [] => false
  | p :: ps, c :: cs => p == c && startsWithL ps cs

/-- `pat` occurs as a contiguous substring of `s` (Python `pat in s`). -/
def occursL (pat : Str) : Str → Bool
  | [] => startsWithL pat []
  | c :: rest => startsWithL pat (c :: rest) || occursL pat rest

/-- Worker for `replaceAll`: scans the string left to right; `skip` counts
characters still to discard after a match was replaced. -/
def replGo (pat repl : Str) : Nat → Str → Str
  | _ + 1, [] => []
  | 0, [] => []
  | n + 1, _ :: rest => replGo pat repl n rest
  | 0, c :: rest =>
    if startsWithL pat (c :: rest) then
      repl ++ replGo pat repl (pat.length - 1) rest
    else
      c :: replGo pat repl 0 rest

/-- Python `s.replace(pat, repl)`: replace every non-overlapping occurrence of
`pat` in `s` by `repl`, scanning left to right.  (All call sites in the source
use a non-empty `pat`; an empty pattern is treated as the identity.) -/
def replaceAll (pat repl s : Str) : Str :=
  if pat.isEmpty then s else replGo pat repl 0 s

/-- Python `s.split(sep)` for a single-character separator. -/
def splitChar (sep : Char) : Str → List Str
  | [] => [[]]
  | c :: rest =>
    if c = sep then [] :: splitChar sep rest
    else
      match splitChar sep rest with
      | [] => [[c]]
      | p :: ps => (c :: p) :: ps

/-- Python `sep.join(parts)` for a single-character separator. -/
def joinChar (sep : Char) : List Str → Str
  | [] => []
  | [p] => p
  | p :: ps => p ++ sep :: joinChar sep ps

/-- Worker for `splitSemi`: scans left to right; the flag marks the space of a
just-matched `"; "` separator, still to be skipped. -/
def splitSemiGo : Bool → Str → List Str
  | true, [] => [[]]
  | true, _ :: rest => splitSemiGo false rest
  | false, [] => [[]]
  | false, c :: rest =>
    if startsWithL (str "; ") (c :: rest) then [] :: splitSemiGo true rest
    else
      match splitSemiGo false rest with
      | [] => [[c]]
      | p :: ps => (c :: p) :: ps

/-- Python `s.split("; ")`, specialised to the separator used throughout the
source for multi-valued metadata fields. -/
def splitSemi (s : Str) : List Str := splitSemiGo false s

/-- Python `"; ".join(parts)`. -/
def joinSemi : List Str → Str
  | [] => []
  | [p] => p
  | p :: ps => p ++ ';' :: ' ' :: joinSemi ps

/-- Keep the first occurrence of each distinct entry, in order (the `seen` set
plus list comprehension idiom of `util.deduplicate_subjects`). -/
def keepFirst (seen : List Str) : List Str → List Str
  | [] => []
  | x :: xs => if x ∈ seen then keepFirst seen xs else x :: keepFirst (x :: seen) xs

/-- ASCII lower-casing of one character (Python `str.lower` on the ASCII range,
which is the range exercised by DOIs). -/
def lowerChar (c : Char) : Char :=
  if 65 ≤ c.toNat ∧ c.toNat ≤ 90 then Char.ofNat (c.toNat + 32) else c

/-- ASCII upper-casing of one character (Python `str.upper` on the ASCII range). -/
def upperChar (c : Char) : Char :=
  if 97 ≤ c.toNat ∧ c.toNat ≤ 122 then Char.ofNat (c.toNat - 32) else c

/-- Python `s.strip()`: drop leading and trailing whitespace. -/
def trimL (s : Str) : Str :=
  ((s.dropWhile Char.isWhitespace).reverse.dropWhile Char.isWhitespace).reverse

/-- Python `s.rstrip("/")`: drop all trailing slashes. -/
def rstripSlash (s : Str) : Str :=
  (s.reverse.dropWhile (fun c => c = '/')).reverse

/-- The zero-width space U+200B removed by `normalize_doi`. -/
def zwsp : Char := Char.ofNat 0x200B

/-- Decimal value of a digit string (used to model `strptime` field values). -/
def decVal (s : Str) : Nat := s.foldl (fun a c => a * 10 + (c.toNat - 48)) 0

/-- The ASCII-digit test of the `strptime` regular expressions (`\d`). -/
def digit? (c : Char) : Bool := decide (48 ≤ c.toNat ∧ c.toNat ≤ 57)

/-- A canonical row of the merged dataset: the columns the verified claims are
about, each an optional string (`none` is pandas `NA`). -/
structure Row where
  Title : Option Str := none
  DOI : Option Str := none
  Abstract : Option Str := none
  UsageRights : Option Str := none
  AccessRights : Option Str := none
  RepoLink : Option Str := none
  PubDate : Option Str := none
  PubDateOnline : Option Str := none
  PDF : Option Str := none
deriving DecidableEq

/-- The cleanup phase of `util.normalize_doi` (everything before the final
lowercase/strip/format step): typo fixes and URL-prefix stripping, then removal
of zero-width spaces. -/
def cleanDoi (doi0 : Str) : Str :=
  -- normalize DOIs like doi:10.1088/1748-9326/ac413a
  let d1 := replaceAll (str "doi:") [] doi0
  -- fix typo in DOIs like 0.1002/2014WR016668
  let d2 := if startsWithL (str "0.") d1 then '1' :: d1 else d1
  -- fix typo in DOIs like http://dx.doi.org/DOI:
  let d3 := replaceAll (str "http://dx.doi.org/DOI:") [] d2
  -- fix old dx.doi.org (the anchored regex ^https?://(dx\.)?doi\.org/)
  let d4 :=
    if startsWithL (str "https://dx.doi.org/") d3 then d3.drop 19
    else if startsWithL (str "http://dx.doi.org/") d3 then d3.drop 18
    else if startsWithL (str "https://doi.org/") d3 then d3.drop 16
    else if startsWithL (str "http://doi.org/") d3 then d3.drop 15
    else d3
  -- fix typo in DOI URI like https:// doi.org/10.3390/agronomy13030727
  let d5 := replaceAll (str "https:// doi.org/") [] d4
  -- fix URLs that should be DOIs
  let d6 := replaceAll (str "https://www.tandfonline.com/doi/full/") [] d5
  -- fix Unicode non-printing characters like U+200B
  d6.filter (fun c => c ≠ zwsp)

/-- `util.normalize_doi`: NA passes through; otherwise clean the DOI and return
`https://doi.org/` ++ the cleaned DOI lowercased and stripped. -/
def normalize_doi : Option Str → Option Str
  | none => none
  | some doi => some (str "https://doi.org/" ++ trimL ((cleanDoi doi).map lowerChar))

/-- `util.deduplicate_subjects`: split on `"; "`, keep first occurrences,
rejoin; NA passes through. -/
def deduplicate_subjects : Option Str → Option Str
  | none => none
  | some subjects => some (joinSemi (keepFirst [] (splitSemi subjects)))

/-- `util.clean_string`: replace CR and LF by spaces, collapse one double
space, and strip. -/
def clean_string (s : Str) : Str :=
  trimL (replaceAll (str "  ") (str " ")
    (replaceAll (str "\r") (str " ") (replaceAll (str "\n") (str " ") s)))

/-- A date as produced by Python `datetime.strptime` for the accepted formats
(missing month and day default to 1). -/
structure PyDate where
  y : Nat
  m : Nat
  d : Nat
deriving DecidableEq

/-- `datetime <` comparison: lexicographic on (year, month, day). -/
def pyLt (a b : PyDate) : Bool :=
  a.y < b.y || (a.y = b.y && (a.m < b.m || (a.m = b.m && a.d < b.d)))

/-- The earlier of two parsed dates. -/
def pyMin (a b : PyDate) : PyDate := if pyLt a b then a else b

/-- `strptime` `%Y` field: exactly four digits, and `datetime` requires
`1 ≤ year`. -/
def parseYearC (s : Str) : Option Nat :=
  if s.length = 4 && s.all digit? then
    let y := decVal s
    if 1 ≤ y then some y else none
  else none

/-- `strptime` `%m` field: the regex `1[0-2]|0[1-9]|[1-9]`. -/
def parseMonthC : Str → Option Nat
  | [c] => if 49 ≤ c.toNat ∧ c.toNat ≤ 57 then some (c.toNat - 48) else none
  | [c1, c2] =>
    if c1 = '0' ∧ 49 ≤ c2.toNat ∧ c2.toNat ≤ 57 then some (c2.toNat - 48)
    else if c1 = '1' ∧ 48 ≤ c2.toNat ∧ c2.toNat ≤ 50 then some (10 + (c2.toNat - 48))
    else none
  | _ => none

/-- `strptime` `%d` field: the regex `3[01]|[12]\d|0[1-9]|[1-9]`. -/
def parseDayC : Str → Option Nat
  | [c] => if 49 ≤ c.toNat ∧ c.toNat ≤ 57 then some (c.toNat - 48) else none
  | [c1, c2] =>
    if c1 = '3' ∧ 48 ≤ c2.toNat ∧ c2.toNat ≤ 49 then some (30 + (c2.toNat - 48))
    else if (c1 = '1' ∨ c1 = '2') ∧ digit? c2 then
      some ((c1.toNat - 48) * 10 + (c2.toNat - 48))
    else if c1 = '0' ∧ 49 ≤ c2.toNat ∧ c2.toNat ≤ 57 then some (c2.toNat - 48)
    else none
  | _ => none

/-- Gregorian leap year as used by Python `datetime`. -/
def pyLeap (y : Nat) : Bool := y % 4 = 0 && (y % 100 ≠ 0 || y % 400 = 0)

/-- Days in a month, as validated by the `datetime` constructor. -/
def daysInMonth (y m : Nat) : Nat :=
  if m = 1 ∨ m = 3 ∨ m = 5 ∨ m = 7 ∨ m = 8 ∨ m = 10 ∨ m = 12 then 31
  else if m = 4 ∨ m = 6 ∨ m = 9 ∨ m = 11 then 30
  else if pyLeap y then 29 else 28

/-- `datetime.strptime` with the format chosen from the dash-component count
(`%Y`, `%Y-%m` or `%Y-%m-%d`): `none` models the `ValueError` raised on a
string that does not match the chosen format. -/
def strptimeDate : List Str → Option PyDate
  | [ys] => (parseYearC ys).map (fun y => ⟨y, 1, 1⟩)
  | [ys, ms] => do
    let y ← parseYearC ys
    let m ← parseMonthC ms
    pure ⟨y, m, 1⟩
  | [ys, ms, ds] => do
    let y ← parseYearC ys
    let m ← parseMonthC ms
    let d ← parseDayC ds
    if d ≤ daysInMonth y m then pure ⟨y, m, d⟩ else none
  | _ => none

/-- The per-field date handling of `util.get_publication_date`: NA stays
absent (`ok none`); a string with one to three dash-separated components is
parsed (a parse failure raises, modelled by `error`); a string with four or
more components leaves the `..._dt` variable `False`, i.e. is silently treated
as absent. -/
def dateStatus : Option Str → Except Unit (Option (PyDate × Str))
  | none => .ok none
  | some s =>
    if (splitChar '-' s).length ≤ 3 then
      match strptimeDate (splitChar '-' s) with
      | some dt => .ok (some (dt, s))
      | none => .error ()
    else .ok none

/-- `util.get_publication_date`: the earlier of the issue and online dates,
except that an online date starting with `2011` yields the issue date; one
present date is returned as is; no usable date at all raises
(`UnboundLocalError` in the source). -/
def get_publication_date (r : Row) : Except Unit Str := do
  let i ← dateStatus r.PubDate
  let o ← dateStatus r.PubDateOnline
  match i, o with
  | some (idt, istr), some (odt, ostr) =>
    if pyLt idt odt then pure istr
    else if startsWithL (str "2011") ostr then pure istr
    else pure ostr
  | some (_, istr), none => pure istr
  | none, some (_, ostr) => pure ostr
  | none, none => .error ()

/-- A Crossref works response, as consumed by `get_license` and
`filter_abstracts`: either a non-OK HTTP status, or a body carrying the
`license` list (pairs of content-version and URL, `none` when the key is
missing) and whether an `abstract` key is present. -/
inductive CrossrefResp where
  | err : CrossrefResp
  | ok (license : Option (List (Str × Str))) (hasAbstract : Bool) : CrossrefResp

/-- An Unpaywall response, as consumed by `get_access_rights`. -/
inductive UnpaywallResp where
  | err : UnpaywallResp
  | ok (is_oa : Bool) (oa_status : Str) : UnpaywallResp

/-- An OpenAlex works response, as consumed by
`retrieve_abstract_openalex`: an HTTP error, or a body whose `abstract` field
may be `None` (modelled `none`) or any string. -/
inductive OpenAlexResp where
  | httpErr : OpenAlexResp
  | ok (abstract : Option Str) : OpenAlexResp

/-- Python dict lookup after inserting the pairs in order: the last binding of
a key wins. -/
def dictFind (l : List (Str × Str)) (k : Str) : Option Str :=
  (l.reverse.find? (fun p => p.1 = k)).map (fun p => p.2)

/-- The content-version preference order of `get_license`: `am`, then `vor`,
then `tdm`, else `unspecified`; a missing `unspecified` key raises `KeyError`,
which the source catches, leaving the license NA. -/
def chooseLicense (d : List (Str × Str)) : Option Str :=
  match dictFind d (str "am") with
  | some u => some u
  | none =>
    match dictFind d (str "vor") with
    | some u => some u
    | none =>
      match dictFind d (str "tdm") with
      | some u => some u
      | none => dictFind d (str "unspecified")

/-- The Creative-Commons URL parsing of `get_license` (lines 127-147 of
`util.py`).  `error` models the uncaught `ValueError` of tuple unpacking when
the URL has too few slash-separated segments. -/
def ccParse (license : Str) : Except Unit Str :=
  if occursL (str "creativecommons.org") license then
    if occursL (str "publicdomain/zero/1.0") license then .ok (str "CC0-1.0")
    else
      let l1 := replaceAll (str "/legalcode") [] license
      let l2 := replaceAll (str "/deed.en_GB") [] l1
      let l3 := rstripSlash l2
      let parts := splitChar '/' l3
      if ¬ occursL (str "igo") l3 then
        match parts.reverse with
        | b :: a :: _ => .ok ((str "CC-" ++ a ++ '-' :: b).map upperChar)
        | _ => .error ()
      else
        match parts.reverse with
        | c :: b :: a :: _ => .ok ((str "CC-" ++ a ++ '-' :: b ++ '-' :: c).map upperChar)
        | _ => .error ()
  else .ok license

/-- The publisher-URL-to-copyright substitutions of `get_license`
(lines 153-190 of `util.py`), followed by the final reset of any value that
still contains `http` to NA. -/
def licensePost (license : Str) : Option Str :=
  let rs := str "Copyrighted; all rights reserved"
  let l := replaceAll (str "https://www.elsevier.com/tdm/userlicense/1.0/") rs license
  let l := replaceAll (str "http://www.springer.com/tdm") rs l
  let l := replaceAll (str "http://onlinelibrary.wiley.com/termsAndConditions#vor") rs l
  let l := replaceAll (str "http://www.elsevier.com/open-access/userlicense/1.0/") rs l
  let l := replaceAll (str "https://www.springer.com/tdm") rs l
  let l := replaceAll (str "https://www.springernature.com/gp/researchers/text-and-data-mining") rs l
  let l := replaceAll (str "https://www.cambridge.org/core/terms") rs l
  let l := replaceAll (str "https://academic.oup.com/pages/standard-publication-reuse-rights") rs l
  let l := replaceAll (str "https://www.elsevier.com/legal/tdmrep-license") rs l
  let l := replaceAll (str "http://doi.wiley.com/10.1002/tdm_license_1.1") rs l
  if occursL (str "http") l then none else some l

/-- `util.get_license`: NA for an absent DOI, a DOI not in canonical
`https://doi.org/10.` form, or a non-OK response; otherwise extract a license
from the response in preference order and normalise it. -/
def get_license (doi : Option Str) (resp : CrossrefResp) : Except Unit (Option Str) :=
  match doi with
  | none => .ok none
  | some d =>
    if startsWithL (str "https://doi.org/10.") d then
      match resp with
      | .err => .ok none
      | .ok lic _ =>
        match lic with
        | none => .ok none
        | some entries =>
          match chooseLicense entries with
          | none => .ok none
          | some url => (ccParse url).map licensePost
    else .ok none

/-- `util.get_access_rights`: NA for an absent DOI, a non-canonical DOI, or a
non-OK response; otherwise the Unpaywall OA status mapped into the fixed
vocabulary. -/
def get_access_rights (doi : Option Str) (resp : UnpaywallResp) : Option Str :=
  match doi with
  | none => none
  | some d =>
    if startsWithL (str "https://doi.org/10.") d then
      match resp with
      | .err => none
      | .ok is_oa oa_status =>
        if is_oa then
          if oa_status = str "gold" then some (str "Gold Open Access")
          else if oa_status = str "green" then some (str "Green Open Access")
          else if oa_status = str "hybrid" then some (str "Hybrid Open Access")
          else if oa_status = str "bronze" then some (str "Bronze Open Access")
          else some (str "Open Access")
        else some (str "Limited Access")
    else none

/-- `util.retrieve_abstract_openalex`: keep an existing abstract; on an HTTP
error or a falsy (`None` or empty) OpenAlex abstract return NA. -/
def retrieve_abstract_openalex (r : Row) (resp : OpenAlexResp) : Option Str :=
  match r.Abstract with
  | some a => some a
  | none =>
    match resp with
    | .httpErr => none
    | .ok ab =>
      match ab with
      | none => none
      | some a => if a = [] then none else some a

/-- `util.filter_abstracts`: clear a non-empty abstract unless the usage
rights contain `CC-` or Crossref reports an abstract on file for the DOI. -/
def filter_abstracts (r : Row) (resp : CrossrefResp) : Option Str :=
  match r.Abstract with
  | none => none
  | some a =>
    if (match r.UsageRights with
        | some u => occursL (str "CC-") u
        | none => false) then some a
    else
      match resp with
      | .err => none
      | .ok _ hasAbstract => if hasAbstract then some a else none

/-- `util.pdf_exists`, with the file system as an oracle keyed by the derived
PDF file name. -/
def pdf_exists (fileExists : Str → Bool) (doi : Option Str) : Option Str :=
  match doi with
  | none => none
  | some d =>
    let d' := replaceAll (str "https://doi.org/") [] d
    let f := replaceAll (str "/") (str "-") d' ++ str ".pdf"
    if fileExists f then some f else none

/-- pandas `a.combine_first(b)` at a single cell: the first value when it is
not NA, else the second. -/
def combine_first (a b : Option Str) : Option Str :=
  match a with
  | some v => some v
  | none => b

/-- Membership of an optional cell value in a plain string list (pandas
`Series.isin`: an NA cell is in no list of strings). -/
def memOpt (v : Option Str) (l : List Str) : Bool :=
  match v with
  | none => false
  | some s => decide (s ∈ l)

/-- `str.startswith("https://doi.org/10.", na=False)` on a cell. -/
def startsDoi10 (v : Option Str) : Bool :=
  match v with
  | none => false
  | some s => startsWithL (str "https://doi.org/10.") s

/-- The DOI pass of the deduplicator (line 316 of `merge_source_csvs.py`):
keep a row when its DOI is NA or no earlier row (`seen`) carries the same DOI;
`seen` accumulates the DOIs of all earlier rows, as `Series.duplicated` does. -/
def dedupDOIAux (seen : List (Option Str)) : List Row → List Row
  | [] => []
  | r :: rs =>
    if r.DOI = none ∨ r.DOI ∉ seen then r :: dedupDOIAux (r.DOI :: seen) rs
    else dedupDOIAux (r.DOI :: seen) rs

/-- The DOI pass on a whole collection. -/
def dedupDOI (rows : List Row) : List Row := dedupDOIAux [] rows

/-- The Title pass (line 328, `drop_duplicates(subset=["Title"], keep="first")`):
keep a row when no earlier row carries the same Title cell (NA cells compare
equal to each other, as in pandas). -/
def dedupTitleAux (seen : List (Option Str)) : List Row → List Row
  | [] => []
  | r :: rs =>
    if r.Title ∈ seen then dedupTitleAux (r.Title :: seen) rs
    else r :: dedupTitleAux (r.Title :: seen) rs

/-- The Title pass on a whole collection. -/
def dedupTitle (rows : List Row) : List Row := dedupTitleAux [] rows

/-- The deduplicator: DOI pass first, then Title pass, in the order of the
source (lines 316 and 328). -/
def dedupe (rows : List Row) : List Row := dedupTitle (dedupDOI rows)

/-- The exclusion filter (lines 365-383): drop rows whose DOI is in the
excluded-DOI list, then rows whose repository link is in the excluded-URL
list — set membership via `Series.isin`. -/
def exclusionFilter (excludedDois excludedUrls : List Str) (rows : List Row) : List Row :=
  (rows.filter (fun r => !(memOpt r.DOI excludedDois))).filter
    (fun r => !(memOpt r.RepoLink excludedUrls))

/-- The external collaborators of the enrichment stage, keyed as the source
keys its requests. -/
structure Env where
  crossref : Option Str → CrossrefResp
  unpaywall : Option Str → UnpaywallResp
  openalex : Option Str → OpenAlexResp
  fileExists : Str → Bool

/-- The per-row enrichment of `merge_source_csvs.py` restricted to the modelled
columns, in source order: usage rights from Crossref (lines 402-409), access
rights from Unpaywall (413-428), PDF check (435), publication date (440),
abstract fill from OpenAlex (444), abstract copyright filter (520), and the
four-character year slice (540).  A raised exception anywhere aborts the whole
run, hence the `Except`. -/
def enrichRow (env : Env) (r : Row) : Except Unit Row := do
  let cr ← get_license r.DOI (env.crossref r.DOI)
  let ur := (combine_first cr r.UsageRights).map
    (replaceAll (str "Attribution 4.0") (str "CC-BY-4.0"))
  let up := get_access_rights r.DOI (env.unpaywall r.DOI)
  let ar0 := combine_first up r.AccessRights
  let ar := (ar0.map (replaceAll (str "Closed access") (str "Limited Access"))).map
    (fun s => replaceAll (str "Open access") (str "Open Access")
      (replaceAll (str "Gold open access") (str "Gold Open Access") s))
  let pdf := pdf_exists env.fileExists r.DOI
  let pub ← get_publication_date r
  let r1 : Row :=
    { r with UsageRights := ur, AccessRights := ar, PDF := pdf, PubDate := some pub }
  let ab1 := retrieve_abstract_openalex r1 (env.openalex r1.DOI)
  let ab2 := filter_abstracts { r1 with Abstract := ab1 } (env.crossref r1.DOI)
  pure { r1 with Abstract := ab2, PubDate := some (pub.take 4), PubDateOnline := r.PubDateOnline }

/-- Effectful map over a row list: any raising row aborts the run, as a pandas
`apply` does. -/
def mapExcept (f : Row → Except Unit Row) : List Row → Except Unit (List Row)
  | [] => .ok []
  | r :: rs => do
    let r' ← f r
    let rs' ← mapExcept f rs
    pure (r' :: rs')

/-- The outputs of the merge pipeline that the claims are about: the final
dataset and the missing-DOI diagnostic subset. -/
structure PipeOut where
  final : List Row
  missing : List Row
deriving DecidableEq

/-- The merge pipeline of `merge_source_csvs.py` over the modelled columns:
DOI normalization (line 308), deduplication (316, 328), exclusion filter
(365-383), missing-DOI split (386-395), and per-row enrichment (400-540). -/
def merge_pipeline (env : Env) (excludedDois excludedUrls : List Str)
    (rows0 : List Row) : Except Unit PipeOut :=
  let rows1 := rows0.map (fun r => { r with DOI := normalize_doi r.DOI })
  let rows2 := dedupe rows1
  let rows3 := exclusionFilter excludedDois excludedUrls rows2
  let missing := rows3.filter (fun r => !(startsDoi10 r.DOI))
  let final0 := rows3.filter (fun r => startsDoi10 r.DOI)
  (mapExcept (enrichRow env) final0).map (fun fin => ⟨fin, missing⟩)

/-- A DOI-list output partition (lines 582-644): the rows of the final dataset
whose DOI is in the supplied list. -/
def partitionBy (lst : List Str) (rows : List Row) : List Row :=
  rows.filter (fun r => memOpt r.DOI lst)

/-- The two abstract steps of the pipeline in source order: the OpenAlex fill
(line 444) followed by the copyright filter (line 520); the filter runs after
the filling step. -/
def abstract_stage (env : Env) (r : Row) : Option Str :=
  filter_abstracts { r with Abstract := retrieve_abstract_openalex r (env.openalex r.DOI) }
    (env.crossref r.DOI)

/-- A trivial environment for concrete pipeline runs: every external lookup
fails and no PDF exists. -/
def envW : Env :=
  ⟨fun _ => CrossrefResp.err, fun _ => UnpaywallResp.err,
    fun _ => OpenAlexResp.httpErr, fun _ => false⟩

/-- A concrete row with a canonical DOI, used to exercise the pipeline. -/
def rowW9 : Row :=
  Row.mk (some (str "T")) (some (str "https://doi.org/10.1/a")) none none none none
    (some (str "2015")) none none

/-- A second concrete row with a canonical DOI. -/
def rowW10 : Row :=
  Row.mk (some (str "U")) (some (str "https://doi.org/10.2/b")) none none none none
    (some (str "2016")) none none

/-! ### Character-level lemmas -/

theorem toNat_ofNat_lt {n : Nat} (h : n < 55296) : (Char.ofNat n).toNat = n := by
  unfold Char.ofNat
  rw [dif_pos (Or.inl h)]
  rfl

theorem char_eq_of_toNat {a b : Char} (h : a.toNat = b.toNat) : a = b := by
  have ha := Char.ofNat_toNat a
  have hb := Char.ofNat_toNat b
  rw [← ha, ← hb, h]

theorem lowerChar_toNat (c : Char) :
    (65 ≤ c.toNat ∧ c.toNat ≤ 90 ∧ (lowerChar c).toNat = c.toNat + 32) ∨
      (¬(65 ≤ c.toNat ∧ c.toNat ≤ 90) ∧ lowerChar c = c) := by
  unfold lowerChar
  by_cases h : 65 ≤ c.toNat ∧ c.toNat ≤ 90
  · left
    refine ⟨h.1, h.2, ?_⟩
    rw [if_pos h]
    exact toNat_ofNat_lt (by omega)
  · right
    exact ⟨h, if_neg h⟩

theorem lowerChar_idem (c : Char) : lowerChar (lowerChar c) = lowerChar c := by
  rcases lowerChar_toNat c with ⟨_, _, h3⟩ | ⟨_, h2⟩
  · rcases lowerChar_toNat (lowerChar c) with ⟨h4, h5, _⟩ | ⟨_, h6⟩
    · omega
    · exact h6
  · rw [h2]
    exact h2

theorem lowerChar_not_upper {c d : Char} (hd : 65 ≤ d.toNat) (hd' : d.toNat ≤ 90)
    (h : lowerChar c = d) : False := by
  rcases lowerChar_toNat c with ⟨_, _, h3⟩ | ⟨h1, h2⟩
  · rw [h] at h3; omega
  · rw [h2] at h; exact h1 (by rw [h]; exact ⟨hd, hd'⟩)

theorem lowerChar_ne_zwsp {c : Char} (hc : c ≠ zwsp) : lowerChar c ≠ zwsp := by
  intro h
  rcases lowerChar_toNat c with ⟨_, _, h3⟩ | ⟨_, h2⟩
  · rw [h] at h3
    have : zwsp.toNat = 8203 := rfl
    omega
  · rw [h2] at h; exact hc h

/-! ### Substring and replacement lemmas -/

theorem startsWithL_subset {pat s : Str} (h : startsWithL pat s = true) :
    ∀ c ∈ pat, c ∈ s := by
  induction pat generalizing s with
  | nil => intro c hc; cases hc
  | cons p ps ih =>
    cases s with
    | nil => simp [startsWithL] at h
    | cons x xs =>
      simp only [startsWithL, Bool.and_eq_true, beq_iff_eq] at h
      intro c hc
      rcases List.mem_cons.mp hc with hc | hc
      · exact List.mem_cons.mpr (Or.inl (hc.trans h.1))
      · exact List.mem_cons.mpr (Or.inr (ih h.2 c hc))

theorem occursL_subset {pat s : Str} (h : occursL pat s = true) : ∀ c ∈ pat, c ∈ s := by
  induction s with
  | nil =>
    intro c hc
    simp only [occursL] at h
    cases pat with
    | nil => cases hc
    | cons p ps => simp [startsWithL] at h
  | cons x xs ih =>
    simp only [occursL, Bool.or_eq_true] at h
    intro c hc
    rcases h with h | h
    · exact startsWithL_subset h c hc
    · exact List.mem_cons.mpr (Or.inr (ih h c hc))

theorem occursL_false_of_not_mem {pat s : Str} {c : Char} (hc : c ∈ pat) (hs : c ∉ s) :
    occursL pat s = false := by
  by_contra h
  exact hs (occursL_subset (Bool.of_not_eq_false h) c hc)

theorem occursL_append_right {pat t : Str} (a : Str) (h : occursL pat t = true) :
    occursL pat (a ++ t) = true := by
  induction a with
  | nil => exact h
  | cons x xs ih =>
    simp only [List.cons_append, occursL, Bool.or_eq_true]
    exact Or.inr ih

theorem occursL_false_right {pat t : Str} (a : Str) (h : occursL pat (a ++ t) = false) :
    occursL pat t = false := by
  by_contra hc
  rw [occursL_append_right a (Bool.of_not_eq_false hc)] at h
  cases h

theorem replGo_zero_id {pat repl s : Str} (h : occursL pat s = false) :
    replGo pat repl 0 s = s := by
  induction s with
  | nil => rfl
  | cons c rest ih =>
    simp only [occursL, Bool.or_eq_false_iff] at h
    rw [replGo, if_neg (by simp [h.1]), ih h.2]

theorem replaceAll_id {pat repl s : Str} (h : occursL pat s = false) :
    replaceAll pat repl s = s := by
  unfold replaceAll
  by_cases hp : pat.isEmpty
  · rw [if_pos hp]
  · rw [if_neg hp, replGo_zero_id h]

/-! ### Trim lemmas -/

theorem dropWhile_idem (p : α → Bool) (l : List α) :
    (l.dropWhile p).dropWhile p = l.dropWhile p := by
  induction l with
  | nil => rfl
  | cons x xs ih =>
    by_cases h : p x
    · simp [List.dropWhile, h, ih]
    · simp [List.dropWhile, h]

theorem dropWhile_head_false {p : α → Bool} {s l : List α} {x : α}
    (h : s.dropWhile p = x :: l) : p x = false := by
  induction s with
  | nil => cases h
  | cons y ys ih =>
    by_cases hy : p y
    · rw [List.dropWhile] at h
      rw [hy] at h
      exact ih h
    · rw [List.dropWhile] at h
      rw [Bool.of_not_eq_true hy] at h
      cases h
      exact Bool.of_not_eq_true hy

theorem trimL_subset {s : Str} : ∀ c ∈ trimL s, c ∈ s := by
  intro c hc
  unfold trimL at hc
  rw [List.mem_reverse] at hc
  have h1 := (List.dropWhile_sublist (l := (s.dropWhile Char.isWhitespace).reverse)
    Char.isWhitespace).subset hc
  rw [List.mem_reverse] at h1
  exact (List.dropWhile_sublist (l := s) Char.isWhitespace).subset h1

theorem trimL_drop_eq (s : Str) :
    (trimL s).dropWhile Char.isWhitespace = trimL s := by
  obtain ⟨u, hu⟩ :=
    List.dropWhile_suffix (l := (s.dropWhile Char.isWhitespace).reverse) Char.isWhitespace
  have hpre : trimL s ++ u.reverse = s.dropWhile Char.isWhitespace := by
    have := congrArg List.reverse hu
    rw [List.reverse_append, List.reverse_reverse] at this
    exact this
  cases hbc : trimL s with
  | nil => rfl
  | cons x xs =>
    have hxa : s.dropWhile Char.isWhitespace = x :: (xs ++ u.reverse) := by
      rw [← hpre, hbc]
      simp
    have hx := dropWhile_head_false hxa
    rw [List.dropWhile]
    rw [hx]

theorem trimL_idem (s : Str) : trimL (trimL s) = trimL s := by
  show (((trimL s).dropWhile Char.isWhitespace).reverse.dropWhile Char.isWhitespace).reverse
      = trimL s
  rw [trimL_drop_eq]
  have h2 : (trimL s).reverse.dropWhile Char.isWhitespace = (trimL s).reverse := by
    unfold trimL
    rw [List.reverse_reverse]
    exact dropWhile_idem _ _
  rw [h2, List.reverse_reverse]

/-! ### `normalize_doi` structure lemmas -/

theorem map_id_of_mem {f : α → α} {l : List α} (h : ∀ c ∈ l, f c = c) : l.map f = l := by
  induction l with
  | nil => rfl
  | cons x xs ih =>
    rw [List.map_cons, h x (List.mem_cons_self x xs), ih (fun c hc => h c (List.mem_cons_of_mem x hc))]

theorem cleanDoi_no_zwsp (x : Str) : ∀ c ∈ cleanDoi x, c ≠ zwsp := by
  intro c hc
  unfold cleanDoi at hc
  exact of_decide_eq_true (List.mem_filter.mp hc).2

theorem normalize_doi_eq (x : Str) :
    normalize_doi (some x)
      = some (str "https://doi.org/" ++ trimL ((cleanDoi x).map lowerChar)) := rfl

theorem doiTail_lower {x : Str} :
    ∀ c ∈ trimL ((cleanDoi x).map lowerChar), lowerChar c = c := by
  intro c hc
  obtain ⟨c', _, hc'⟩ := List.mem_map.mp (trimL_subset c hc)
  rw [← hc']
  exact lowerChar_idem c'

theorem doiTail_no_zwsp {x : Str} :
    ∀ c ∈ trimL ((cleanDoi x).map lowerChar), c ≠ zwsp := by
  intro c hc
  obtain ⟨c', hm, hc'⟩ := List.mem_map.mp (trimL_subset c hc)
  rw [← hc']
  exact lowerChar_ne_zwsp (cleanDoi_no_zwsp x c' hm)

theorem doiTail_no_upper_D {x : Str} :
    'D' ∉ trimL ((cleanDoi x).map lowerChar) := by
  intro hc
  obtain ⟨c', _, hc'⟩ := List.mem_map.mp (trimL_subset _ hc)
  exact lowerChar_not_upper (c := c') (d := 'D') (by decide) (by decide) hc'

theorem cleanDoi_of_normalized {x tail : Str}
    (htail : tail = trimL ((cleanDoi x).map lowerChar))
    (h1 : occursL (str "doi:") (str "https://doi.org/" ++ tail) = false)
    (h2 : occursL (str "https:// doi.org/") (str "https://doi.org/" ++ tail) = false)
    (h3 : occursL (str "https://www.tandfonline.com/doi/full/")
        (str "https://doi.org/" ++ tail) = false) :
    cleanDoi (str "https://doi.org/" ++ tail) = tail := by
  have hD : 'D' ∉ str "https://doi.org/" ++ tail := by
    intro hm
    rcases List.mem_append.mp hm with hm | hm
    · revert hm
      decide
    · exact doiTail_no_upper_D (htail ▸ hm)
  have hDOI : occursL (str "http://dx.doi.org/DOI:") (str "https://doi.org/" ++ tail) = false :=
    occursL_false_of_not_mem (c := 'D') (by decide) hD
  have h0 : startsWithL (str "0.") (str "https://doi.org/" ++ tail) = false := rfl
  have hdx1 : startsWithL (str "https://dx.doi.org/") (str "https://doi.org/" ++ tail)
      = false := rfl
  have hdx2 : startsWithL (str "http://dx.doi.org/") (str "https://doi.org/" ++ tail)
      = false := rfl
  have hpre : startsWithL (str "https://doi.org/") (str "https://doi.org/" ++ tail)
      = true := rfl
  have hdrop : (str "https://doi.org/" ++ tail).drop 16 = tail := rfl
  have hfil : tail.filter (fun c => decide (c ≠ zwsp)) = tail := by
    apply List.filter_eq_self.mpr
    intro c hc
    rw [htail] at hc
    exact decide_eq_true (doiTail_no_zwsp c hc)
  unfold cleanDoi
  simp only [replaceAll_id h1, h0, Bool.false_eq_true, if_false, replaceAll_id hDOI,
    hdx1, hdx2, hpre, if_true, hdrop,
    replaceAll_id (occursL_false_right (str "https://doi.org/") h2),
    replaceAll_id (occursL_false_right (str "https://doi.org/") h3), hfil]

/-- Claim C3 (amended): `normalize_doi` is idempotent on every non-empty input
whose normalized form contains no occurrence of the replaced fragments
`doi:`, `https:// doi.org/` or `https://www.tandfonline.com/doi/full/`;
re-normalizing such a normalized DOI returns it unchanged. -/
theorem claim_c3_normalize_doi_idempotent (x y : Str)
    (hy : normalize_doi (some x) = some y)
    (h1 : occursL (str "doi:") y = false)
    (h2 : occursL (str "https:// doi.org/") y = false)
    (h3 : occursL (str "https://www.tandfonline.com/doi/full/") y = false) :
    normalize_doi (some y) = some y := by
  rw [normalize_doi_eq x] at hy
  injection hy with hy
  rw [← hy] at h1 h2 h3
  have htail : trimL ((cleanDoi x).map lowerChar)
      = trimL ((cleanDoi x).map lowerChar) := rfl
  rw [← hy, normalize_doi_eq,
    cleanDoi_of_normalized htail h1 h2 h3,
    map_id_of_mem (fun c hc => doiTail_lower c hc),
    trimL_idem]

/-- Claim C3 (counterexample): `normalize_doi` is not idempotent on the
non-empty input `DOI:10.1/x` — the first pass leaves the uppercase `DOI:`
fragment (only lowercasing it), and the second pass then strips it. -/
theorem claim_c3_counterexample :
    normalize_doi (normalize_doi (some (str "DOI:10.1/x")))
      ≠ normalize_doi (some (str "DOI:10.1/x")) := by
  decide

theorem claim_c3_witness :
    normalize_doi (some (str "10.1/AB")) = some (str "https://doi.org/10.1/ab") ∧
      normalize_doi (some (str "https://doi.org/10.1/ab"))
        = some (str "https://doi.org/10.1/ab") :=
  ⟨by decide,
    claim_c3_normalize_doi_idempotent (str "10.1/AB") (str "https://doi.org/10.1/ab")
      (by decide) (by decide) (by decide) (by decide)⟩

/-! ### Deduplicator lemmas -/

theorem dedupDOIAux_filter_of_mem {d : Str} (rows : List Row) :
    ∀ seen, some d ∈ seen →
      (dedupDOIAux seen rows).filter (fun r => decide (r.DOI = some d)) = [] := by
  induction rows with
  | nil => intro seen _; rfl
  | cons r rs ih =>
    intro seen hs
    unfold dedupDOIAux
    by_cases hk : r.DOI = none ∨ r.DOI ∉ seen
    · have hne : r.DOI ≠ some d := by
        intro he
        rcases hk with hk | hk
        · rw [he] at hk; cases hk
        · rw [he] at hk; exact hk hs
      rw [if_pos hk,
        List.filter_cons_of_neg (by rw [decide_eq_false hne]; exact Bool.false_ne_true)]
      exact ih _ (List.mem_cons_of_mem _ hs)
    · rw [if_neg hk]
      exact ih _ (List.mem_cons_of_mem _ hs)

theorem dedupDOIAux_filter_take {d : Str} (rows : List Row) :
    ∀ seen, some d ∉ seen →
      (dedupDOIAux seen rows).filter (fun r => decide (r.DOI = some d))
        = (rows.filter (fun r => decide (r.DOI = some d))).take 1 := by
  induction rows with
  | nil => intro seen _; rfl
  | cons r rs ih =>
    intro seen hs
    by_cases hd : r.DOI = some d
    · have hk : r.DOI = none ∨ r.DOI ∉ seen := Or.inr (by rw [hd]; exact hs)
      unfold dedupDOIAux
      rw [if_pos hk,
        List.filter_cons_of_pos (by rw [decide_eq_true hd]),
        List.filter_cons_of_pos (by rw [decide_eq_true hd])]
      rw [dedupDOIAux_filter_of_mem rs _ (by rw [hd]; exact List.mem_cons_self _ _)]
      rfl
    · have hskip : decide (r.DOI = some d) = false := decide_eq_false hd
      have hs' : some d ∉ (r.DOI :: seen) := by
        intro hm
        rcases List.mem_cons.mp hm with hm | hm
        · exact hd hm.symm
        · exact hs hm
      unfold dedupDOIAux
      by_cases hk : r.DOI = none ∨ r.DOI ∉ seen
      · rw [if_pos hk, List.filter_cons_of_neg (by rw [hskip]; exact Bool.false_ne_true),
          List.filter_cons_of_neg (by rw [hskip]; exact Bool.false_ne_true)]
        exact ih _ hs'
      · rw [if_neg hk, List.filter_cons_of_neg (by rw [hskip]; exact Bool.false_ne_true)]
        exact ih _ hs'

theorem dedupDOIAux_filter_none (rows : List Row) :
    ∀ seen, (dedupDOIAux seen rows).filter (fun r => decide (r.DOI = none))
      = rows.filter (fun r => decide (r.DOI = none)) := by
  induction rows with
  | nil => intro _; rfl
  | cons r rs ih =>
    intro seen
    unfold dedupDOIAux
    by_cases hn : r.DOI = none
    · rw [if_pos (Or.inl hn), List.filter_cons_of_pos (by rw [decide_eq_true hn]),
        List.filter_cons_of_pos (by rw [decide_eq_true hn]), ih]
    · have hskip : decide (r.DOI = none) = false := decide_eq_false hn
      rw [List.filter_cons_of_neg (by rw [hskip]; exact Bool.false_ne_true)]
      by_cases hk : r.DOI = none ∨ r.DOI ∉ seen
      · rw [if_pos hk, List.filter_cons_of_neg (by rw [hskip]; exact Bool.false_ne_true), ih]
      · rw [if_neg hk, ih]

theorem dedupTitleAux_filter_of_mem {t : Option Str} (rows : List Row) :
    ∀ seen, t ∈ seen →
      (dedupTitleAux seen rows).filter (fun r => decide (r.Title = t)) = [] := by
  induction rows with
  | nil => intro seen _; rfl
  | cons r rs ih =>
    intro seen hs
    unfold dedupTitleAux
    by_cases hk : r.Title ∈ seen
    · rw [if_pos hk]
      exact ih _ (List.mem_cons_of_mem _ hs)
    · have hne : r.Title ≠ t := fun he => hk (he ▸ hs)
      rw [if_neg hk,
        List.filter_cons_of_neg (by rw [decide_eq_false hne]; exact Bool.false_ne_true)]
      exact ih _ (List.mem_cons_of_mem _ hs)

theorem dedupTitleAux_filter_take {t : Option Str} (rows : List Row) :
    ∀ seen, t ∉ seen →
      (dedupTitleAux seen rows).filter (fun r => decide (r.Title = t))
        = (rows.filter (fun r => decide (r.Title = t))).take 1 := by
  induction rows with
  | nil => intro seen _; rfl
  | cons r rs ih =>
    intro seen hs
    by_cases ht : r.Title = t
    · have hk : r.Title ∉ seen := by rw [ht]; exact hs
      unfold dedupTitleAux
      rw [if_neg hk,
        List.filter_cons_of_pos (by rw [decide_eq_true ht]),
        List.filter_cons_of_pos (by rw [decide_eq_true ht])]
      rw [dedupTitleAux_filter_of_mem rs _ (by rw [ht]; exact List.mem_cons_self _ _)]
      rfl
    · have hskip : decide (r.Title = t) = false := decide_eq_false ht
      have hs' : t ∉ (r.Title :: seen) := by
        intro hm
        rcases List.mem_cons.mp hm with hm | hm
        · exact ht hm.symm
        · exact hs hm
      unfold dedupTitleAux
      by_cases hk : r.Title ∈ seen
      · rw [if_pos hk, List.filter_cons_of_neg (by rw [hskip]; exact Bool.false_ne_true)]
        exact ih _ hs'
      · rw [if_neg hk, List.filter_cons_of_neg (by rw [hskip]; exact Bool.false_ne_true),
          List.filter_cons_of_neg (by rw [hskip]; exact Bool.false_ne_true)]
        exact ih _ hs'

/-- Claim C1: the deduplicator runs its DOI pass before its Title pass; the
DOI pass keeps, for each non-empty normalized DOI, exactly the first row (in
input order) with that DOI; the Title pass then keeps, among the DOI-pass
survivors, exactly the first row with each Title value. -/
theorem claim_c1_dedupe_order (rows : List Row) :
    dedupe rows = dedupTitle (dedupDOI rows) ∧
      (∀ d : Str, (dedupDOI rows).filter (fun r => decide (r.DOI = some d))
        = (rows.filter (fun r => decide (r.DOI = some d))).take 1) ∧
      (∀ t : Option Str, (dedupe rows).filter (fun r => decide (r.Title = t))
        = ((dedupDOI rows).filter (fun r => decide (r.Title = t))).take 1) := by
  refine ⟨rfl, fun d => ?_, fun t => ?_⟩
  · exact dedupDOIAux_filter_take rows [] (by intro h; cases h)
  · exact dedupTitleAux_filter_take (dedupDOI rows) [] (by intro h; cases h)

/-- Claim C2 (amended): the DOI pass treats only an absent/NA DOI as "no
DOI" — rows with an absent DOI all survive the DOI pass, in order, and are
never considered duplicates of each other.  An empty-string DOI, however, is
not exempt: `normalize_doi` maps it to `https://doi.org/`, a non-NA value, so
two rows whose DOI is the empty string collide in the DOI pass and only the
first survives. -/
theorem claim_c2_no_doi_rows_survive :
    normalize_doi none = none ∧
      (∀ rows : List Row, (dedupDOI rows).filter (fun r => decide (r.DOI = none))
        = rows.filter (fun r => decide (r.DOI = none))) ∧
      normalize_doi (some []) = some (str "https://doi.org/") := by
  refine ⟨rfl, fun rows => dedupDOIAux_filter_none rows [], by decide⟩

/-- Claim C2 (counterexample): two rows whose DOI is the empty string — both
"lacking a DOI" in the claim's sense — are considered duplicates by the DOI
pass (run, as in the source, after DOI normalization): only one row survives. -/
theorem claim_c2_counterexample :
    (dedupDOI (([{ Title := some (str "A"), DOI := some (str "") },
        { Title := some (str "B"), DOI := some (str "") }] : List Row).map
          (fun r => { r with DOI := normalize_doi r.DOI }))).length = 1 := by
  decide

/-! ### Subject-splitting lemmas -/

theorem sep_chars : str "; " = ';' :: ' ' :: [] := rfl

theorem splitSemiGo_sep (t : Str) :
    splitSemiGo false (';' :: ' ' :: t) = [] :: splitSemiGo false t := rfl

theorem splitSemiGo_ne_nil (s : Str) : splitSemiGo false s ≠ [] := by
  cases s with
  | nil => exact List.cons_ne_nil _ _
  | cons c rest =>
    unfold splitSemiGo
    by_cases h : startsWithL (str "; ") (c :: rest) = true
    · rw [if_pos h]
      exact List.cons_ne_nil _ _
    · rw [if_neg h]
      rcases hm : splitSemiGo false rest with _ | ⟨p, ps⟩
      · exact List.cons_ne_nil _ _
      · exact List.cons_ne_nil _ _

theorem splitSemiGo_cons_no_sep {c : Char} {rest : Str}
    (h : startsWithL (str "; ") (c :: rest) = false) :
    ∃ q qs, splitSemiGo false (c :: rest) = (c :: q) :: qs ∧
      splitSemiGo false rest = q :: qs := by
  rcases hm : splitSemiGo false rest with _ | ⟨q, qs⟩
  · exact absurd hm (splitSemiGo_ne_nil _)
  · refine ⟨q, qs, ?_, rfl⟩
    unfold splitSemiGo
    rw [if_neg (by rw [h]; exact Bool.false_ne_true), hm]

theorem startsWithL_sep_of_shape {c : Char} {rest : Str}
    (h : startsWithL (str "; ") (c :: rest) = true) :
    c = ';' ∧ ∃ t, rest = ' ' :: t := by
  cases rest with
  | nil =>
    rw [sep_chars] at h
    simp [startsWithL] at h
  | cons c2 t =>
    rw [sep_chars] at h
    simp only [startsWithL, Bool.and_eq_true, beq_iff_eq] at h
    exact ⟨h.1.symm, t, by rw [← h.2.1]⟩

theorem splitSemiGo_parts_no_sep :
    ∀ (n : Nat) (s : Str), s.length ≤ n →
      ∀ p ∈ splitSemiGo false s, occursL (str "; ") p = false := by
  intro n
  induction n with
  | zero =>
    intro s hs p hp
    rw [List.length_eq_zero.mp (Nat.le_zero.mp hs)] at hp
    rw [List.mem_singleton.mp hp]
    rfl
  | succ n ih =>
    intro s hs p hp
    cases s with
    | nil =>
      rw [List.mem_singleton.mp hp]
      rfl
    | cons c rest =>
      by_cases hsw : startsWithL (str "; ") (c :: rest) = true
      · obtain ⟨hc, t, ht⟩ := startsWithL_sep_of_shape hsw
        rw [hc, ht] at hp
        rw [splitSemiGo_sep t] at hp
        rcases List.mem_cons.mp hp with hp | hp
        · rw [hp]; rfl
        · refine ih t ?_ p hp
          rw [ht] at hs
          simp at hs
          omega
      · have hsw' : startsWithL (str "; ") (c :: rest) = false :=
          Bool.of_not_eq_true hsw
        obtain ⟨q, qs, hgo, hrest⟩ := splitSemiGo_cons_no_sep hsw'
        rw [hgo] at hp
        have hqmem : ∀ x ∈ q :: qs, occursL (str "; ") x = false := by
          intro x hx
          rw [← hrest] at hx
          exact ih rest (by simp at hs; omega) x hx
        rcases List.mem_cons.mp hp with hp | hp
        · rw [hp]
          have hq : occursL (str "; ") q = false := hqmem q (List.mem_cons_self _ _)
          have hcq : startsWithL (str "; ") (c :: q) = false := by
            rw [sep_chars]
            by_cases h1 : c = ';'
            · cases rest with
              | nil =>
                have : q = [] := by
                  rw [show splitSemiGo false ([] : Str) = [[]] from rfl] at hrest
                  cases hrest
                  rfl
                rw [this, h1]
                rfl
              | cons c2 tt =>
                have h2 : ¬(c2 = ' ') := by
                  intro h2
                  rw [h1, h2] at hsw
                  rw [sep_chars] at hsw
                  simp [startsWithL] at hsw
                by_cases hsw2 : startsWithL (str "; ") (c2 :: tt) = true
                · obtain ⟨hc2, t', ht'⟩ := startsWithL_sep_of_shape hsw2
                  rw [hc2, ht', splitSemiGo_sep t'] at hrest
                  cases hrest
                  rw [h1]
                  simp [startsWithL]
                · obtain ⟨q', qs', hgo', _⟩ :=
                    splitSemiGo_cons_no_sep (Bool.of_not_eq_true hsw2)
                  rw [hgo'] at hrest
                  cases hrest
                  rw [h1]
                  simp [startsWithL, beq_eq_false_iff_ne.mpr (fun he => h2 he.symm)]
            · simp [startsWithL, beq_eq_false_iff_ne.mpr (fun he => h1 he.symm)]
          unfold occursL
          rw [hcq, hq]
          rfl
        · exact hqmem p (List.mem_cons_of_mem _ hp)

theorem splitSemiGo_append_sep :
    ∀ (n : Nat) (p : Str), p.length ≤ n → occursL (str "; ") p = false →
      ∀ t, splitSemiGo false (p ++ ';' :: ' ' :: t) = p :: splitSemiGo false t := by
  intro n
  induction n with
  | zero =>
    intro p hp _ t
    rw [List.length_eq_zero.mp (Nat.le_zero.mp hp)]
    exact splitSemiGo_sep t
  | succ n ih =>
    intro p hp hocc t
    cases p with
    | nil => exact splitSemiGo_sep t
    | cons c p' =>
      have hocc2 : occursL (str "; ") p' = false := by
        have h := hocc
        unfold occursL at h
        exact (Bool.or_eq_false_iff.mp h).2
      have hswp : startsWithL (str "; ") (c :: p') = false := by
        have h := hocc
        unfold occursL at h
        exact (Bool.or_eq_false_iff.mp h).1
      have hsw : startsWithL (str "; ") (c :: (p' ++ ';' :: ' ' :: t)) = false := by
        cases p' with
        | nil =>
          rw [sep_chars]
          simp only [List.nil_append, startsWithL]
          simp
        | cons c2 p'' =>
          rw [sep_chars] at hswp ⊢
          simp only [List.cons_append, startsWithL] at hswp ⊢
          exact hswp
      obtain ⟨q, qs, hgo, hrest⟩ := splitSemiGo_cons_no_sep hsw
      have hih : splitSemiGo false (p' ++ ';' :: ' ' :: t) = p' :: splitSemiGo false t :=
        ih p' (by simp at hp; omega) hocc2 t
      rw [hih] at hrest
      cases hrest
      rw [List.cons_append]
      exact hgo

theorem splitSemiGo_no_sep_singleton :
    ∀ (n : Nat) (p : Str), p.length ≤ n → occursL (str "; ") p = false →
      splitSemiGo false p = [p] := by
  intro n
  induction n with
  | zero =>
    intro p hp _
    rw [List.length_eq_zero.mp (Nat.le_zero.mp hp)]
    rfl
  | succ n ih =>
    intro p hp hocc
    cases p with
    | nil => rfl
    | cons c p' =>
      have hocc2 : occursL (str "; ") p' = false := by
        have h := hocc
        unfold occursL at h
        exact (Bool.or_eq_false_iff.mp h).2
      have hswp : startsWithL (str "; ") (c :: p') = false := by
        have h := hocc
        unfold occursL at h
        exact (Bool.or_eq_false_iff.mp h).1
      obtain ⟨q, qs, hgo, hrest⟩ := splitSemiGo_cons_no_sep hswp
      have hih : splitSemiGo false p' = [p'] := ih p' (by simp at hp; omega) hocc2
      rw [hih] at hrest
      cases hrest
      exact hgo

theorem splitSemi_joinSemi (ps : List Str) (hne : ps ≠ [])
    (hfree : ∀ p ∈ ps, occursL (str "; ") p = false) :
    splitSemi (joinSemi ps) = ps := by
  induction ps with
  | nil => exact absurd rfl hne
  | cons p ps ih =>
    cases ps with
    | nil =>
      show splitSemiGo false (joinSemi [p]) = [p]
      rw [show joinSemi [p] = p from rfl]
      exact splitSemiGo_no_sep_singleton p.length p (Nat.le_refl _)
        (hfree p (List.mem_cons_self _ _))
    | cons q qs =>
      show splitSemiGo false (p ++ ';' :: ' ' :: joinSemi (q :: qs)) = p :: q :: qs
      rw [splitSemiGo_append_sep p.length p (Nat.le_refl _)
        (hfree p (List.mem_cons_self _ _))]
      exact congrArg _ (ih (List.cons_ne_nil _ _)
        (fun x hx => hfree x (List.mem_cons_of_mem _ hx)))

theorem keepFirst_subset (l : List Str) :
    ∀ seen, ∀ x ∈ keepFirst seen l, x ∈ l := by
  induction l with
  | nil => intro _ x hx; cases hx
  | cons y ys ih =>
    intro seen x hx
    unfold keepFirst at hx
    by_cases hy : y ∈ seen
    · rw [if_pos hy] at hx
      exact List.mem_cons_of_mem _ (ih _ x hx)
    · rw [if_neg hy] at hx
      rcases List.mem_cons.mp hx with hx | hx
      · rw [hx]; exact List.mem_cons_self _ _
      · exact List.mem_cons_of_mem _ (ih _ x hx)

/-- Claim C6: `deduplicate_subjects` passes NA through, maps `a; b; a; c` to
`a; b; c`, and in general splits its input on `"; "`, keeps the first
occurrence of each distinct entry in original order, and rejoins with `"; "`:
splitting the output on `"; "` yields exactly the first-occurrence
subsequence of the input's entries. -/
theorem claim_c6_deduplicate_subjects :
    deduplicate_subjects none = none ∧
      deduplicate_subjects (some (str "a; b; a; c")) = some (str "a; b; c") ∧
      (∀ s : Str, ∃ t : Str, deduplicate_subjects (some s) = some t ∧
        splitSemi t = keepFirst [] (splitSemi s)) := by
  refine ⟨rfl, by decide, fun s => ?_⟩
  refine ⟨joinSemi (keepFirst [] (splitSemi s)), rfl, ?_⟩
  have hne : keepFirst [] (splitSemi s) ≠ [] := by
    rcases hsp : splitSemi s with _ | ⟨p, ps⟩
    · exact absurd hsp (splitSemiGo_ne_nil s)
    · unfold keepFirst
      rw [if_neg (by intro h; cases h)]
      exact List.cons_ne_nil _ _
  have hfree : ∀ p ∈ keepFirst [] (splitSemi s), occursL (str "; ") p = false :=
    fun p hp => splitSemiGo_parts_no_sep s.length s (Nat.le_refl _) p
      (keepFirst_subset (splitSemi s) [] p hp)
  exact splitSemi_joinSemi _ hne hfree

/-! ### Date-resolution lemmas -/

theorem splitChar_ne_nil (sep : Char) (s : Str) : splitChar sep s ≠ [] := by
  cases s with
  | nil => exact List.cons_ne_nil _ _
  | cons c rest =>
    unfold splitChar
    by_cases h : c = sep
    · rw [if_pos h]
      exact List.cons_ne_nil _ _
    · rw [if_neg h]
      rcases hm : splitChar sep rest with _ | ⟨p, ps⟩
      · exact List.cons_ne_nil _ _
      · exact List.cons_ne_nil _ _

theorem joinChar_splitChar (sep : Char) (s : Str) :
    joinChar sep (splitChar sep s) = s := by
  induction s with
  | nil => rfl
  | cons c rest ih =>
    unfold splitChar
    by_cases h : c = sep
    · rw [if_pos h]
      rcases hm : splitChar sep rest with _ | ⟨p, ps⟩
      · exact absurd hm (splitChar_ne_nil sep rest)
      · rw [hm] at ih
        show joinChar sep ([] :: p :: ps) = c :: rest
        unfold joinChar
        rw [h, ih]
        rfl
    · rw [if_neg h]
      rcases hm : splitChar sep rest with _ | ⟨p, ps⟩
      · exact absurd hm (splitChar_ne_nil sep rest)
      · rw [hm] at ih
        cases ps with
        | nil =>
          show joinChar sep [c :: p] = c :: rest
          unfold joinChar at ih ⊢
          rw [ih]
        | cons q qs =>
          show joinChar sep ((c :: p) :: q :: qs) = c :: rest
          unfold joinChar at ih ⊢
          rw [List.cons_append, ih]

theorem startsWithL_append_self (p t : Str) : startsWithL p (p ++ t) = true := by
  induction p with
  | nil => rfl
  | cons c cs ih =>
    show (c == c && startsWithL cs (cs ++ t)) = true
    rw [beq_self_eq_true, ih]
    rfl

theorem startsWithL_eq_of_len :
    ∀ (p a : Str), p.length = a.length → ∀ t, startsWithL p (a ++ t) = true → p = a := by
  intro p
  induction p with
  | nil =>
    intro a hlen _ _
    exact (List.length_eq_zero.mp hlen.symm).symm ▸ rfl
  | cons c cs ih =>
    intro a hlen t hsw
    cases a with
    | nil => cases hlen
    | cons x xs =>
      simp only [List.cons_append, startsWithL, Bool.and_eq_true, beq_iff_eq] at hsw
      simp only [List.length_cons, Nat.succ.injEq] at hlen
      rw [hsw.1, ih xs hlen t hsw.2]

theorem parseYearC_some {ys : Str} {y : Nat} (h : parseYearC ys = some y) :
    ys.length = 4 ∧ ys.all digit? = true ∧ decVal ys = y := by
  unfold parseYearC at h
  by_cases hc : (decide (ys.length = 4) && ys.all digit?) = true
  · rw [if_pos hc] at h
    rw [Bool.and_eq_true] at hc
    by_cases h1 : 1 ≤ decVal ys
    · rw [if_pos h1] at h
      injection h with h
      exact ⟨of_decide_eq_true hc.1, hc.2, h⟩
    · rw [if_neg h1] at h
      cases h
  · rw [if_neg hc] at h
    cases h

theorem decVal_eq_2011 {a b c d : Char}
    (ha : digit? a = true) (hb : digit? b = true)
    (hc : digit? c = true) (hd : digit? d = true)
    (h : decVal [a, b, c, d] = 2011) : ([a, b, c, d] : Str) = str "2011" := by
  have ha' := of_decide_eq_true ha
  have hb' := of_decide_eq_true hb
  have hc' := of_decide_eq_true hc
  have hd' := of_decide_eq_true hd
  unfold decVal at h
  simp only [List.foldl] at h
  have hA : a.toNat = 50 := by omega
  have hB : b.toNat = 48 := by omega
  have hC : c.toNat = 49 := by omega
  have hD : d.toNat = 49 := by omega
  have e1 : a = '2' := char_eq_of_toNat (by rw [hA]; rfl)
  have e2 : b = '0' := char_eq_of_toNat (by rw [hB]; rfl)
  have e3 : c = '1' := char_eq_of_toNat (by rw [hC]; rfl)
  have e4 : d = '1' := char_eq_of_toNat (by rw [hD]; rfl)
  rw [e1, e2, e3, e4]
  rfl

theorem parseYearC_2011 {ys : Str} {y : Nat} (h : parseYearC ys = some y) :
    y = 2011 ↔ ys = str "2011" := by
  obtain ⟨hlen, hdig, hval⟩ := parseYearC_some h
  constructor
  · intro hy
    rcases ys with _ | ⟨a, _ | ⟨b, _ | ⟨c, _ | ⟨d, _ | ⟨e, tl⟩⟩⟩⟩⟩ <;>
      simp only [List.length_cons, List.length_nil] at hlen
    · omega
    · omega
    · omega
    · omega
    · have hall := hdig
      simp only [List.all_cons, List.all_nil, Bool.and_eq_true, Bool.and_true] at hall
      exact decVal_eq_2011 hall.1 hall.2.1 hall.2.2.1 hall.2.2.2 (by rw [hval, hy])
    · omega
  · intro hys
    rw [hys] at hval
    have : decVal (str "2011") = 2011 := rfl
    omega

theorem strptimeDate_year {parts : List Str} {dt : PyDate}
    (h : strptimeDate parts = some dt) :
    ∃ ys rest, parts = ys :: rest ∧ parseYearC ys = some dt.y := by
  match parts with
  | [] => cases h
  | [ys] =>
    refine ⟨ys, [], rfl, ?_⟩
    replace h : (parseYearC ys).map (fun y => (⟨y, 1, 1⟩ : PyDate)) = some dt := h
    cases hy : parseYearC ys with
    | none => rw [hy] at h; cases h
    | some y =>
      rw [hy] at h
      injection h with h
      rw [← h]
  | [ys, ms] =>
    refine ⟨ys, [ms], rfl, ?_⟩
    replace h : (parseYearC ys).bind (fun y => (parseMonthC ms).bind
      (fun m => some (⟨y, m, 1⟩ : PyDate))) = some dt := h
    cases hy : parseYearC ys with
    | none => rw [hy] at h; cases h
    | some y =>
      rw [hy] at h
      cases hm : parseMonthC ms with
      | none => rw [hm] at h; cases h
      | some m =>
        rw [hm] at h
        injection h with h
        rw [← h]
  | [ys, ms, ds] =>
    refine ⟨ys, [ms, ds], rfl, ?_⟩
    replace h : (parseYearC ys).bind (fun y => (parseMonthC ms).bind
      (fun m => (parseDayC ds).bind (fun d =>
        if d ≤ daysInMonth y m then some (⟨y, m, d⟩ : PyDate) else none))) = some dt := h
    cases hy : parseYearC ys with
    | none => rw [hy] at h; cases h
    | some y =>
      rw [hy] at h
      cases hm : parseMonthC ms with
      | none => rw [hm] at h; cases h
      | some m =>
        rw [hm] at h
        cases hd : parseDayC ds with
        | none => rw [hd] at h; cases h
        | some d =>
          rw [hd] at h
          simp only [Option.some_bind] at h
          by_cases hdm : d ≤ daysInMonth y m
          · rw [if_pos hdm] at h
            injection h with h
            rw [← h]
          · rw [if_neg hdm] at h
            cases h
  | _ :: _ :: _ :: _ :: _ => cases h

theorem dateStatus_some {s : Str} {dt : PyDate} {s' : Str}
    (h : dateStatus (some s) = .ok (some (dt, s'))) :
    s' = s ∧ (splitChar '-' s).length ≤ 3 ∧ strptimeDate (splitChar '-' s) = some dt := by
  simp only [dateStatus] at h
  by_cases hl : (splitChar '-' s).length ≤ 3
  · rw [if_pos hl] at h
    cases hm : strptimeDate (splitChar '-' s) with
    | none => rw [hm] at h; cases h
    | some dt' =>
      rw [hm] at h
      injection h with h
      injection h with h
      injection h with h1 h2
      exact ⟨h2.symm, hl, by rw [h1]⟩
  · rw [if_neg hl] at h
    injection h with h
    cases h

theorem dateStatus_year2011 {o : Str} {odt : PyDate}
    (h : dateStatus (some o) = .ok (some (odt, o))) :
    (startsWithL (str "2011") o = true ↔ odt.y = 2011) := by
  obtain ⟨-, hlen, hsp⟩ := dateStatus_some h
  obtain ⟨ys, rest, hparts, hyear⟩ := strptimeDate_year hsp
  obtain ⟨hlen4, -, -⟩ := parseYearC_some hyear
  have ho : o = joinChar '-' (ys :: rest) := by
    rw [← hparts, joinChar_splitChar]
  constructor
  · intro hsw
    rcases rest with _ | ⟨q, qs⟩
    · have hys : str "2011" = ys := by
        apply startsWithL_eq_of_len _ _ (by rw [hlen4]; rfl) []
        rw [List.append_nil]
        rw [ho] at hsw
        exact hsw
      exact (parseYearC_2011 hyear).mpr hys.symm
    · have hys : str "2011" = ys := by
        apply startsWithL_eq_of_len _ _ (by rw [hlen4]; rfl) ('-' :: joinChar '-' (q :: qs))
        have hjo : o = ys ++ '-' :: joinChar '-' (q :: qs) := by
          rw [ho]; exact rfl
        rw [← hjo]
        exact hsw
      exact (parseYearC_2011 hyear).mpr hys.symm
  · intro hy
    have hys := (parseYearC_2011 hyear).mp hy
    rcases rest with _ | ⟨q, qs⟩
    · rw [ho]
      show startsWithL (str "2011") ys = true
      rw [hys]
      decide
    · rw [ho]
      show startsWithL (str "2011") (ys ++ '-' :: joinChar '-' (q :: qs)) = true
      rw [hys]
      exact startsWithL_append_self (str "2011") _

/-- Claim C4: `get_publication_date` returns, of two well-formed dates, the
string whose parsed date is the earlier one, except that an online date whose
year is 2011 always yields the issue date; a single present date is returned
as is; and the three examples of the specification hold. -/
theorem claim_c4_get_publication_date :
    (∀ (i o : Str) (idt odt : PyDate) (r : Row),
      r.PubDate = some i → r.PubDateOnline = some o →
      dateStatus (some i) = .ok (some (idt, i)) →
      dateStatus (some o) = .ok (some (odt, o)) →
      odt.y ≠ 2011 →
      get_publication_date r = .ok (if pyLt idt odt then i else o) ∧
        dateStatus (some (if pyLt idt odt then i else o))
          = .ok (some (pyMin idt odt, if pyLt idt odt then i else o))) ∧
    (∀ (i o : Str) (idt odt : PyDate) (r : Row),
      r.PubDate = some i → r.PubDateOnline = some o →
      dateStatus (some i) = .ok (some (idt, i)) →
      dateStatus (some o) = .ok (some (odt, o)) →
      odt.y = 2011 →
      get_publication_date r = .ok i) ∧
    (∀ (i : Str) (idt : PyDate) (r : Row),
      r.PubDate = some i → r.PubDateOnline = none →
      dateStatus (some i) = .ok (some (idt, i)) →
      get_publication_date r = .ok i) ∧
    (∀ (o : Str) (odt : PyDate) (r : Row),
      r.PubDate = none → r.PubDateOnline = some o →
      dateStatus (some o) = .ok (some (odt, o)) →
      get_publication_date r = .ok o) ∧
    get_publication_date
        { PubDate := some (str "2015"), PubDateOnline := some (str "2014-06") }
      = .ok (str "2014-06") ∧
    get_publication_date
        { PubDate := some (str "2012"), PubDateOnline := some (str "2011-12") }
      = .ok (str "2012") ∧
    get_publication_date { PubDateOnline := some (str "2016-03-01") }
      = .ok (str "2016-03-01") := by
  refine ⟨?_, ?_, ?_, ?_, rfl, rfl, rfl⟩
  · intro i o idt odt r hri hro hdi hdo hne
    have h2011 : startsWithL (str "2011") o = false :=
      Bool.eq_false_iff.mpr (fun hc => hne ((dateStatus_year2011 hdo).mp hc))
    constructor
    · unfold get_publication_date
      rw [hri, hro, hdi, hdo]
      simp only [bind, Except.bind, h2011]
      by_cases hlt : pyLt idt odt = true
      · simp [hlt, pure, Except.pure]
      · simp [Bool.of_not_eq_true hlt, h2011, pure, Except.pure]
    · by_cases hlt : pyLt idt odt = true
      · simp only [pyMin, hlt, if_true]
        exact hdi
      · simp only [pyMin, Bool.of_not_eq_true hlt, Bool.false_eq_true, if_false]
        exact hdo
  · intro i o idt odt r hri hro hdi hdo hy
    have h2011 : startsWithL (str "2011") o = true := (dateStatus_year2011 hdo).mpr hy
    unfold get_publication_date
    rw [hri, hro, hdi, hdo]
    simp only [bind, Except.bind, h2011]
    by_cases hlt : pyLt idt odt = true
    · simp [hlt, pure, Except.pure]
    · simp [Bool.of_not_eq_true hlt, h2011, pure, Except.pure]
  · intro i idt r hri hro hdi
    unfold get_publication_date
    rw [hri, hro, hdi]
    simp [bind, Except.bind, dateStatus, pure, Except.pure]
  · intro o odt r hri hro hdo
    unfold get_publication_date
    rw [hri, hro, hdo]
    simp [bind, Except.bind, dateStatus, pure, Except.pure]

theorem claim_c4_witness :
    get_publication_date
        { PubDate := some (str "2015"), PubDateOnline := some (str "2014-06") }
      = .ok (if pyLt ⟨2015, 1, 1⟩ ⟨2014, 6, 1⟩ then str "2015" else str "2014-06") :=
  (claim_c4_get_publication_date.1 (str "2015") (str "2014-06")
    ⟨2015, 1, 1⟩ ⟨2014, 6, 1⟩
    { PubDate := some (str "2015"), PubDateOnline := some (str "2014-06") }
    rfl rfl rfl rfl (by decide)).1

/-- Claim C5: at the failing input below, the reference code does NOT surface
a hard failure: a malformed date with four dash-separated components (matching
none of the accepted formats) is silently treated as absent, and the other
date is returned.  Malformed dates with one to three components do raise (the
third conjunct shows one). -/
theorem claim_c5_malformed_date_behavior :
    get_publication_date
        { PubDate := some (str "2020"), PubDateOnline := some (str "1999-01-01-01") }
      = .ok (str "2020") ∧
      dateStatus (some (str "1999-01-01-01")) = .ok none ∧
      dateStatus (some (str "2015-13")) = .error () :=
  ⟨rfl, rfl, rfl⟩

/-! ### Enrichment lemmas -/

/-- Claim C7: the license and open-access lookups resolve to NA (without
raising) on an absent DOI, a DOI not in canonical `https://doi.org/10.` form,
and a non-OK response; and `combine_first` overrides the repository value
exactly when the external lookup is definite, keeping it otherwise. -/
theorem claim_c7_enrichment_fallible :
    (∀ resp, get_license none resp = .ok none) ∧
      (∀ (d : Str) (resp : CrossrefResp),
        startsWithL (str "https://doi.org/10.") d = false →
        get_license (some d) resp = .ok none) ∧
      (∀ d : Str, get_license (some d) .err = .ok none) ∧
      (∀ resp, get_access_rights none resp = none) ∧
      (∀ (d : Str) (resp : UnpaywallResp),
        startsWithL (str "https://doi.org/10.") d = false →
        get_access_rights (some d) resp = none) ∧
      (∀ d : Str, get_access_rights (some d) .err = none) ∧
      (∀ (v : Str) (repo : Option Str), combine_first (some v) repo = some v) ∧
      (∀ repo : Option Str, combine_first none repo = repo) := by
  refine ⟨fun _ => rfl, ?_, ?_, fun _ => rfl, ?_, ?_, fun _ _ => rfl, fun _ => rfl⟩
  · intro d resp hsw
    simp only [get_license]
    rw [if_neg (by rw [hsw]; exact Bool.false_ne_true)]
  · intro d
    simp only [get_license]
    by_cases hsw : startsWithL (str "https://doi.org/10.") d = true
    · rw [if_pos hsw]
    · rw [if_neg hsw]
  · intro d resp hsw
    simp only [get_access_rights]
    rw [if_neg (by rw [hsw]; exact Bool.false_ne_true)]
  · intro d
    simp only [get_access_rights]
    by_cases hsw : startsWithL (str "https://doi.org/10.") d = true
    · rw [if_pos hsw]
    · rw [if_neg hsw]

theorem claim_c7_witness :
    startsWithL (str "https://doi.org/10.") (str "10.1/abc") = false ∧
      get_license (some (str "10.1/abc")) CrossrefResp.err = .ok none :=
  ⟨by decide,
    claim_c7_enrichment_fallible.2.1 (str "10.1/abc") CrossrefResp.err (by decide)⟩

/-- Claim C8: the abstract copyright filter keeps a present abstract unchanged
when the usage rights contain `CC-` (in particular for `CC-BY-4.0`), clears it
when the usage rights are absent and the registry reports no abstract on file,
never produces anything but NA or the unchanged abstract, and — within the
per-row enrichment — is the step applied after the abstract-filling step and
all other modelled enrichment steps. -/
theorem claim_c8_abstract_filter :
    (∀ (r : Row) (resp : CrossrefResp) (a : Str),
      r.Abstract = some a → r.UsageRights = some (str "CC-BY-4.0") →
      filter_abstracts r resp = some a) ∧
      (∀ (r : Row) (lic : Option (List (Str × Str))) (a : Str),
        r.Abstract = some a → r.UsageRights = none →
        filter_abstracts r (.ok lic false) = none) ∧
      (∀ (r : Row) (resp : CrossrefResp),
        filter_abstracts r resp = none ∨ filter_abstracts r resp = r.Abstract) ∧
      (∀ (env : Env) (r r' : Row), enrichRow env r = .ok r' →
        ∃ r1 : Row, r'.Abstract = abstract_stage env r1 ∧
          r1.Abstract = r.Abstract ∧ r1.DOI = r.DOI) := by
  refine ⟨?_, ?_, ?_, ?_⟩
  · intro r resp a ha hu
    unfold filter_abstracts
    rw [ha, hu]
    exact rfl
  · intro r lic a ha hu
    unfold filter_abstracts
    rw [ha, hu]
    exact rfl
  · intro r resp
    cases ha : r.Abstract with
    | none =>
      left
      unfold filter_abstracts
      rw [ha]
    | some a =>
      have hred : filter_abstracts r resp =
          (if (match r.UsageRights with
              | some u => occursL (str "CC-") u
              | none => false) = true then some a
           else
             match resp with
             | CrossrefResp.err => none
             | CrossrefResp.ok _ hasAbs => if hasAbs = true then some a else none) := by
        unfold filter_abstracts
        rw [ha]
      rw [hred]
      by_cases hcc : (match r.UsageRights with
          | some u => occursL (str "CC-") u
          | none => false) = true
      · rw [if_pos hcc]
        exact Or.inr rfl
      · rw [if_neg hcc]
        cases resp with
        | err => exact Or.inl rfl
        | ok lic hasAbs =>
          cases hasAbs with
          | false => exact Or.inl rfl
          | true => exact Or.inr rfl
  · intro env r r' h
    unfold enrichRow at h
    cases hl : get_license r.DOI (env.crossref r.DOI) with
    | error e =>
      rw [hl] at h
      simp only [bind, Except.bind] at h
      cases h
    | ok cr =>
      rw [hl] at h
      simp only [bind, Except.bind] at h
      cases hp : get_publication_date r with
      | error e =>
        rw [hp] at h
        simp only [bind, Except.bind] at h
        cases h
      | ok pub =>
        rw [hp] at h
        simp only [bind, Except.bind, pure, Except.pure] at h
        injection h with h
        refine ⟨{ r with
          UsageRights := (combine_first cr r.UsageRights).map
            (replaceAll (str "Attribution 4.0") (str "CC-BY-4.0")),
          AccessRights := ((combine_first (get_access_rights r.DOI (env.unpaywall r.DOI))
              r.AccessRights).map
            (replaceAll (str "Closed access") (str "Limited Access"))).map
            (fun s => replaceAll (str "Open access") (str "Open Access")
              (replaceAll (str "Gold open access") (str "Gold Open Access") s)),
          PDF := pdf_exists env.fileExists r.DOI,
          PubDate := some pub }, ?_, rfl, rfl⟩
        rw [← h]
        exact rfl

theorem claim_c8_witness :
    filter_abstracts
        { Abstract := some (str "An abstract"), UsageRights := some (str "CC-BY-4.0") }
        CrossrefResp.err = some (str "An abstract") :=
  claim_c8_abstract_filter.1
    { Abstract := some (str "An abstract"), UsageRights := some (str "CC-BY-4.0") }
    CrossrefResp.err (str "An abstract") rfl rfl

/-! ### Pipeline lemmas -/

theorem enrichRow_DOI {env : Env} {r r' : Row} (h : enrichRow env r = .ok r') :
    r'.DOI = r.DOI := by
  unfold enrichRow at h
  cases hl : get_license r.DOI (env.crossref r.DOI) with
  | error e =>
    rw [hl] at h
    simp only [bind, Except.bind] at h
    cases h
  | ok cr =>
    rw [hl] at h
    simp only [bind, Except.bind] at h
    cases hp : get_publication_date r with
    | error e =>
      rw [hp] at h
      simp only [bind, Except.bind] at h
      cases h
    | ok pub =>
      rw [hp] at h
      simp only [bind, Except.bind, pure, Except.pure] at h
      injection h with h
      rw [← h]

theorem mapExcept_mem {f : Row → Except Unit Row} {rows out : List Row}
    (h : mapExcept f rows = .ok out) : ∀ r' ∈ out, ∃ r ∈ rows, f r = .ok r' := by
  induction rows generalizing out with
  | nil =>
    injection h with h
    rw [← h]
    intro r' hr'
    cases hr'
  | cons r rs ih =>
    unfold mapExcept at h
    cases hf : f r with
    | error e =>
      rw [hf] at h
      simp only [bind, Except.bind] at h
      cases h
    | ok r1 =>
      rw [hf] at h
      simp only [bind, Except.bind] at h
      cases hm : mapExcept f rs with
      | error e =>
        rw [hm] at h
        simp only [bind, Except.bind] at h
        cases h
      | ok rest =>
        rw [hm] at h
        simp only [bind, Except.bind, pure, Except.pure] at h
        injection h with h
        rw [← h]
        intro r' hr'
        rcases List.mem_cons.mp hr' with hr' | hr'
        · exact ⟨r, List.mem_cons_self _ _, by rw [hf, hr']⟩
        · obtain ⟨r0, hr0, hfr0⟩ := ih hm r' hr'
          exact ⟨r0, List.mem_cons_of_mem _ hr0, hfr0⟩

theorem exclusionFilter_mem (dois urls : List Str) (rows : List Row) (r : Row) :
    r ∈ exclusionFilter dois urls rows ↔
      r ∈ rows ∧ memOpt r.DOI dois = false ∧ memOpt r.RepoLink urls = false := by
  unfold exclusionFilter
  rw [List.mem_filter, List.mem_filter]
  constructor
  · rintro ⟨⟨h1, h2⟩, h3⟩
    exact ⟨h1, by simpa using h2, by simpa using h3⟩
  · rintro ⟨h1, h2, h3⟩
    exact ⟨⟨h1, by simp [h2]⟩, by simp [h3]⟩

theorem merge_pipeline_ok {env : Env} {dois urls : List Str} {rows : List Row}
    {out : PipeOut} (h : merge_pipeline env dois urls rows = .ok out) :
    mapExcept (enrichRow env)
        ((exclusionFilter dois urls (dedupe (rows.map
          (fun r => { r with DOI := normalize_doi r.DOI })))).filter
            (fun r => startsDoi10 r.DOI)) = .ok out.final ∧
      out.missing = (exclusionFilter dois urls (dedupe (rows.map
        (fun r => { r with DOI := normalize_doi r.DOI })))).filter
          (fun r => !(startsDoi10 r.DOI)) := by
  replace h : (mapExcept (enrichRow env)
      ((exclusionFilter dois urls (dedupe (rows.map
        (fun r => { r with DOI := normalize_doi r.DOI })))).filter
          (fun r => startsDoi10 r.DOI))).map
      (fun fin => (⟨fin, (exclusionFilter dois urls (dedupe (rows.map
        (fun r => { r with DOI := normalize_doi r.DOI })))).filter
          (fun r => !(startsDoi10 r.DOI))⟩ : PipeOut)) = .ok out := h
  cases hm : mapExcept (enrichRow env)
      ((exclusionFilter dois urls (dedupe (rows.map
        (fun r => { r with DOI := normalize_doi r.DOI })))).filter
          (fun r => startsDoi10 r.DOI)) with
  | error e =>
    rw [hm] at h
    cases h
  | ok fin =>
    rw [hm] at h
    simp only [Except.map] at h
    injection h with h
    rw [← h]
    exact ⟨rfl, rfl⟩

/-- Claim C9: the exclusion filter drops exactly the rows whose DOI is a
member of the excluded-DOI list or whose repository link is a member of the
excluded-URL list (set membership); consequently, in any successful pipeline
run, no row carrying an excluded DOI appears in any DOI-list output
partition. -/
theorem claim_c9_exclusion_filter :
    (∀ (dois urls : List Str) (rows : List Row) (r : Row),
      r ∈ exclusionFilter dois urls rows ↔
        r ∈ rows ∧ memOpt r.DOI dois = false ∧ memOpt r.RepoLink urls = false) ∧
      (∀ (env : Env) (dois urls : List Str) (rows : List Row) (out : PipeOut)
          (d : Str) (lst : List Str) (r' : Row),
        merge_pipeline env dois urls rows = .ok out →
        d ∈ dois →
        r' ∈ partitionBy lst out.final →
        r'.DOI ≠ some d) := by
  refine ⟨exclusionFilter_mem, ?_⟩
  intro env dois urls rows out d lst r' hpipe hd hpart
  obtain ⟨hfin, -⟩ := merge_pipeline_ok hpipe
  have hr' : r' ∈ out.final := (List.mem_filter.mp hpart).1
  obtain ⟨r, hrmem, henr⟩ := mapExcept_mem hfin r' hr'
  have hdoi := enrichRow_DOI henr
  have hrex := (List.mem_filter.mp hrmem).1
  have hno : memOpt r.DOI dois = false :=
    ((exclusionFilter_mem dois urls _ r).mp hrex).2.1
  intro he
  rw [hdoi] at he
  rw [he] at hno
  simp only [memOpt, decide_eq_false_iff_not] at hno
  exact hno hd

/-- Claim C10: in any successful pipeline run, every row of the final dataset
— and hence of every DOI-list partition — has a DOI starting with
`https://doi.org/10.`, while the rows of the missing-DOI diagnostic subset are
exactly those whose DOI does not. -/
theorem claim_c10_canonical_doi_invariant (env : Env) (dois urls : List Str)
    (rows : List Row) (out : PipeOut)
    (h : merge_pipeline env dois urls rows = .ok out) :
    (∀ r ∈ out.final, startsDoi10 r.DOI = true) ∧
      (∀ lst : List Str, ∀ r ∈ partitionBy lst out.final, startsDoi10 r.DOI = true) ∧
      (∀ r ∈ out.missing, startsDoi10 r.DOI = false) := by
  obtain ⟨hfin, hmiss⟩ := merge_pipeline_ok h
  have hfinal : ∀ r ∈ out.final, startsDoi10 r.DOI = true := by
    intro r' hr'
    obtain ⟨r, hrmem, henr⟩ := mapExcept_mem hfin r' hr'
    have hdoi := enrichRow_DOI henr
    rw [hdoi]
    exact (List.mem_filter.mp hrmem).2
  refine ⟨hfinal, ?_, ?_⟩
  · intro lst r hr
    exact hfinal r (List.mem_filter.mp hr).1
  · intro r hr
    rw [hmiss] at hr
    have := (List.mem_filter.mp hr).2
    simpa using this

theorem claim_c9_witness : rowW9.DOI ≠ some (str "zzz") :=
  claim_c9_exclusion_filter.2 envW [str "zzz"] [] [rowW9] ⟨[rowW9], []⟩ (str "zzz")
    [str "https://doi.org/10.1/a"] rowW9 rfl (by decide) (by decide)

theorem claim_c10_witness : startsDoi10 rowW10.DOI = true :=
  (claim_c10_canonical_doi_invariant envW [] [] [rowW10] ⟨[rowW10], []⟩ rfl).1
    rowW10 (by decide)
